import Mathlib

/-!
Verification of the LanceDB backend (`src/backend/main.py`) of the
365-Weapons-App repository.

The development shallowly embeds the endpoint handlers that the claims
are about:

* `hybrid_search` (`POST /lancedb/hybrid-search`, lines 279-346): the
  reciprocal-rank fusion of a vector result list and a keyword result
  list.  The two result lists, the embedding call and the keyword query
  outcome are inputs of the embedding (they are produced by external
  collaborators: the embedding provider and the collection store).
  Python float arithmetic is modelled by exact rationals (`ℚ`), and the
  insertion-ordered Python `dict` by an association list with
  insert-or-replace-in-place semantics.  `sorted(..., reverse=True)` is
  a stable descending sort, modelled by `List.insertionSort` with the
  relation `scoreGE`.
* the table lifecycle (`ensure_table_exists`, `create_table`), the
  delete endpoint (`delete_documents`) and the ingestion endpoint
  (`insert_documents`) over an explicit store state
  (`Store := List (String × List StoredRecord)`).
-/

namespace WeaponsBackend

/-- A row returned by a store query, as `hybrid_search` sees it:
`row.get('id', ...)` may find an `id` field or not (`Option String`),
and `payload` stands for the rest of the row's data
(`row.to_dict()`). -/
structure Record where
  id : Option String
  payload : Nat
  deriving DecidableEq

/-- One value of the `combined` dict of `hybrid_search`
(lines 297-317): `{'data': row.to_dict(), 'vector_score': ..,
'keyword_score': ..}`. -/
structure Entry where
  data : Record
  vector_score : ℚ
  keyword_score : ℚ
  deriving DecidableEq

/-- `doc_id = row.get('id', str(idx))` (lines 299 and 308). -/
def assignKey (idx : Nat) (row : Record) : String :=
  row.id.getD (toString idx)

/-- The fused score `scores['vector_score'] + scores['keyword_score']`
used as the sort key (line 321) and as the returned `_score`
(line 335). -/
def totalScore (e : Entry) : ℚ :=
  e.vector_score + e.keyword_score

/-- `combined[doc_id] = v` on a Python dict: if the key is present its
value is replaced at its existing position, otherwise the binding is
appended at the end (insertion order preserved). -/
def dictSet : List (String × Entry) → String → Entry → List (String × Entry)
  | [], k, v => [(k, v)]
  | p :: ps, k, v => if p.1 = k then (k, v) :: ps else p :: dictSet ps k v

/-- `doc_id in combined`. -/
def hasKey : List (String × Entry) → String → Bool
  | [], _ => false
  | p :: ps, k => if p.1 = k then true else hasKey ps k

/-- `combined[doc_id]['keyword_score'] = sc` (line 311): update the
keyword score of the entry already stored under `k`. -/
def setKeywordScore : List (String × Entry) → String → ℚ → List (String × Entry)
  | [], _, _ => []
  | p :: ps, k, sc =>
      if p.1 = k then (p.1, { p.2 with keyword_score := sc }) :: ps
      else p :: setKeywordScore ps k sc

/-- Dict lookup `combined[k]`. -/
def lookupEntry : List (String × Entry) → String → Option Entry
  | [], _ => none
  | p :: ps, k => if p.1 = k then some p.2 else lookupEntry ps k

/-- The first loop of `hybrid_search` (lines 298-305): for each row of
the vector result list at 0-based position `idx`,
`combined[doc_id] = {'data': row, 'vector_score': (1/(idx+1)) * (1 - alpha),
'keyword_score': 0}`. -/
def buildVectorFrom (alpha : ℚ) : Nat → List (String × Entry) → List Record → List (String × Entry)
  | _, m, [] => m
  | idx, m, row :: rest =>
      buildVectorFrom alpha (idx + 1)
        (dictSet m (assignKey idx row) ⟨row, (1 / (idx + 1 : ℚ)) * (1 - alpha), 0⟩) rest

/-- The second loop of `hybrid_search` (lines 307-317): for each row of
the keyword result list at position `idx`, either update the keyword
score of the entry already present under `doc_id`, or append a new
entry with zero vector score. -/
def addKeywordFrom (alpha : ℚ) : Nat → List (String × Entry) → List Record → List (String × Entry)
  | _, m, [] => m
  | idx, m, row :: rest =>
      addKeywordFrom alpha (idx + 1)
        (if hasKey m (assignKey idx row) then
          setKeywordScore m (assignKey idx row) ((1 / (idx + 1 : ℚ)) * alpha)
        else
          m ++ [(assignKey idx row, ⟨row, 0, (1 / (idx + 1 : ℚ)) * alpha⟩)]) rest

/-- The `combined` dict after both loops of `hybrid_search`. -/
def combinedEntries (alpha : ℚ) (vector_results keyword_results : List Record) :
    List (String × Entry) :=
  addKeywordFrom alpha 0 (buildVectorFrom alpha 0 [] vector_results) keyword_results

/-- The comparison realised by
`sorted(..., key=lambda x: vector_score + keyword_score, reverse=True)`:
`a` may come before `b` iff `b`'s fused score is at most `a`'s. -/
def scoreGE (a b : String × Entry) : Prop :=
  totalScore b.2 ≤ totalScore a.2

instance : DecidableRel scoreGE := fun a b =>
  inferInstanceAs (Decidable (totalScore b.2 ≤ totalScore a.2))

instance : IsTotal (String × Entry) scoreGE :=
  ⟨fun a b => le_total (totalScore b.2) (totalScore a.2)⟩

instance : IsTrans (String × Entry) scoreGE :=
  ⟨fun _ _ _ h1 h2 => le_trans h2 h1⟩

/-- `ranked = sorted(combined.items(), key=..., reverse=True)`
(lines 319-323, before the `[:limit]` truncation).  Python's `sorted`
is stable, so equal-score items keep their dict insertion order;
`List.insertionSort scoreGE` has exactly that behaviour. -/
def rankedEntries (alpha : ℚ) (vector_results keyword_results : List Record) :
    List (String × Entry) :=
  List.insertionSort scoreGE (combinedEntries alpha vector_results keyword_results)

/-- One returned item (lines 325-336): the record payload together with
the merge key it was ranked under and its `_score` field. -/
structure FusedItem where
  doc_id : String
  data : Record
  score : ℚ
  deriving DecidableEq

/-- The result list of `hybrid_search`: sort, truncate to `limit`,
attach `_score = vector_score + keyword_score` to each item. -/
def hybrid_search_results (alpha : ℚ) (limit : Nat)
    (vector_results keyword_results : List Record) : List FusedItem :=
  ((rankedEntries alpha vector_results keyword_results).take limit).map
    (fun p => ⟨p.1, p.2.data, totalScore p.2⟩)

/-- The `hybrid_search` endpoint handler (lines 279-346).  The outcomes
of the external calls are inputs: `embedR` is the `get_embedding` call,
`vectorR` the vector query, `keywordR` the keyword (full-text) query.
A failing embedding or vector query propagates to the outer
`except Exception` handler and yields an HTTP 500; a failing keyword
query is absorbed by the bare inner `except:` (lines 292-295) and
replaced by the empty list.  Note that no validation of `alpha` occurs
anywhere on this path (`HybridSearchRequest`, lines 121-126, declares
`alpha: float = 0.5` with no range constraint). -/
def hybrid_search (embedR : Except Unit (List ℚ)) (vectorR : Except Unit (List Record))
    (keywordR : Except Unit (List Record)) (alpha : ℚ) (limit : Nat) :
    Except Nat (List FusedItem) :=
  match embedR with
  | .error _ => .error 500
  | .ok _ =>
    match vectorR with
    | .error _ => .error 500
    | .ok vector_results =>
      match keywordR with
      | .error _ => .ok (hybrid_search_results alpha limit vector_results [])
      | .ok keyword_results =>
          .ok (hybrid_search_results alpha limit vector_results keyword_results)

/-! ### Rank/score helper functions (read off the same loops)

`findHitFrom idx rs k` is the first row of `rs` (position counted from
`idx`) whose assigned document identifier is `k`, together with its
absolute position — the position whose reciprocal the loops of
`hybrid_search` turn into a score. -/

def findHitFrom : Nat → List Record → String → Option (Nat × Record)
  | _, [], _ => none
  | idx, row :: rest, k =>
      if assignKey idx row = k then some (idx, row) else findHitFrom (idx + 1) rest k

/-- The document identifiers assigned to a result list, in list
order. -/
def assignedKeysFrom : Nat → List Record → List String
  | _, [] => []
  | idx, row :: rest => assignKey idx row :: assignedKeysFrom (idx + 1) rest

def assignedKeys (rs : List Record) : List String :=
  assignedKeysFrom 0 rs

/-- `vector_component`: the score contributed by the vector list to the
document identified by `k` — `(1/(i+1)) * (1 - alpha)` at 0-based
position `i`, and `0` when the document is not in the vector list. -/
def vector_component (alpha : ℚ) (vector_results : List Record) (k : String) : ℚ :=
  match findHitFrom 0 vector_results k with
  | some (i, _) => (1 / (i + 1 : ℚ)) * (1 - alpha)
  | none => 0

/-- `keyword_component`: the score contributed by the keyword list —
`(1/(j+1)) * alpha` at 0-based position `j`, else `0`. -/
def keyword_component (alpha : ℚ) (keyword_results : List Record) (k : String) : ℚ :=
  match findHitFrom 0 keyword_results k with
  | some (j, _) => (1 / (j + 1 : ℚ)) * alpha
  | none => 0

/-! ### The collection store and the table-lifecycle endpoints -/

/-- A stored record, with the fixed schema of `ensure_table_exists` and
`create_table` (lines 189-194 and 422-427). -/
structure StoredRecord where
  id : String
  text : String
  vector : List ℚ
  metadata : String
  deriving DecidableEq

/-- `EMBEDDING_DIMENSION = 1536` (line 37). -/
def EMBEDDING_DIMENSION : Nat := 1536

/-- The placeholder record used to seed a newly created table. -/
def placeholderRecord : StoredRecord :=
  ⟨"placeholder", "placeholder", List.replicate EMBEDDING_DIMENSION 0, "\x7b\x7d"⟩

/-- The LanceDB connection state: the tables by name, each a list of
records. -/
abbrev Store : Type := List (String × List StoredRecord)

/-- `db.table_names()`. -/
def tableNames (s : Store) : List String :=
  s.map Prod.fst

/-- `db.create_table(name, data=[placeholder])`. -/
def rawCreate (s : Store) (name : String) : Store :=
  s ++ [(name, [placeholderRecord])]

/-- `table.delete('id = "<docId>"')` on table `name`: remove every
record of that table whose `id` equals `docId`. -/
def tableDelete (s : Store) (name docId : String) : Store :=
  s.map (fun t => if t.1 = name then (t.1, t.2.filter (fun r => r.id ≠ docId)) else t)

/-- `table.add(records)` on table `name`. -/
def tableAdd (s : Store) (name : String) (recs : List StoredRecord) : Store :=
  s.map (fun t => if t.1 = name then (t.1, t.2 ++ recs) else t)

/-- The content of a table, `None` when absent. -/
def lookupTable : Store → String → Option (List StoredRecord)
  | [], _ => none
  | t :: ts, n => if t.1 = n then some t.2 else lookupTable ts n

/-- `ensure_table_exists` (lines 186-196): a no-op when the table
exists; otherwise create it seeded with the placeholder record and
delete the placeholder at once. -/
def ensure_table_exists (s : Store) (table_name : String) : Store :=
  if table_name ∈ tableNames s then s
  else tableDelete (rawCreate s table_name) table_name "placeholder"

/-- The `create_table` endpoint (lines 408-439): returns the new store
and the response `status` string (`"exists"` or `"success"`). -/
def create_table (s : Store) (table : String) : Store × String :=
  if table ∈ tableNames s then (s, "exists")
  else (tableDelete (rawCreate s table) table "placeholder", "success")

/-- The `delete_documents` endpoint (lines 385-406): returns the new
store and either the deleted count or an HTTP error status.  When the
table is absent, the handler raises `HTTPException(404)` inside the
`try` block — but that exception is itself an `Exception`, so the
blanket `except Exception` handler at line 405 catches it and re-raises
it as `HTTPException(500, str(e))`; the reported status is 500. -/
def delete_documents (s : Store) (table : String) (ids : List String) :
    Store × Except Nat Nat :=
  if table ∈ tableNames s then
    (ids.foldl (fun st i => tableDelete st table i) s, .ok ids.length)
  else
    (s, .error 500)

/-! ### The ingestion endpoint -/

/-- An input document of the `insert_documents` endpoint: the fields
the handler inspects (`id`, `text`, `content`, `description`), each
possibly absent. -/
structure Doc where
  id : Option String
  text : Option String
  content : Option String
  description : Option String
  deriving DecidableEq

/-- Stand-in for `json.dumps(doc)` (line 362): some full serialization
of the document; the claims never inspect its shape. -/
def dumpsDoc (d : Doc) : String :=
  "doc:" ++ d.id.getD "" ++ "," ++ d.text.getD "" ++ "," ++
    d.content.getD "" ++ "," ++ d.description.getD ""

/-- Stand-in for the metadata blob
`json.dumps({k: v for k, v in doc.items() if k not in ['id','text','vector']})`
(line 370). -/
def metadataDump (d : Doc) : String :=
  d.content.getD "" ++ ";" ++ d.description.getD ""

/-- Text selection (lines 360-362):
`doc.get('text', doc.get('content', doc.get('description', '')))`,
falling back to the full serialization when the result is falsy. -/
def selectText (d : Doc) : String :=
  let t := ((d.text.orElse fun _ => (d.content.orElse fun _ => d.description)).getD "")
  if t = "" then dumpsDoc d else t

/-- The record-building loop of `insert_documents` (lines 358-372):
one `get_embedding` call per document; the first failing call aborts
the whole loop before anything is written.  `embed` is the outcome of
`get_embedding` per text; `genId n` stands for the fresh
`str(uuid.uuid4())` generated for the `n`-th document. -/
def buildRecords (embed : String → Except Unit (List ℚ)) (genId : Nat → String) :
    Nat → List Doc → Except Unit (List StoredRecord)
  | _, [] => .ok []
  | n, d :: ds =>
    match embed (selectText d) with
    | .error e => .error e
    | .ok v =>
      match buildRecords embed genId (n + 1) ds with
      | .error e => .error e
      | .ok rs => .ok (⟨d.id.getD (genId n), selectText d, v, metadataDump d⟩ :: rs)

/-- The `insert_documents` endpoint (lines 348-383): ensure the table,
build all records (each needing an embedding), then append them in one
`table.add` call.  An embedding failure propagates to the
`except Exception` handler → HTTP 500; the store keeps the state left
by `ensure_table_exists` (the table creation is not rolled back), but
no record of the batch has been written. -/
def insert_documents (embed : String → Except Unit (List ℚ)) (genId : Nat → String)
    (s : Store) (table : String) (documents : List Doc) : Store × Except Nat Nat :=
  let s1 := ensure_table_exists s table
  match buildRecords embed genId 0 documents with
  | .error _ => (s1, .error 500)
  | .ok records => (tableAdd s1 table records, .ok records.length)

/-! ### Dictionary lemmas -/

/-- The keys of the `combined` dict, in insertion order. -/
def keysOf (m : List (String × Entry)) : List String :=
  m.map Prod.fst

theorem keysOf_nil : keysOf [] = [] := rfl

theorem keysOf_cons (p : String × Entry) (ps : List (String × Entry)) :
    keysOf (p :: ps) = p.1 :: keysOf ps := rfl

theorem keysOf_append (m l : List (String × Entry)) :
    keysOf (m ++ l) = keysOf m ++ keysOf l := by
  simp [keysOf]

theorem hasKey_eq_true_iff (m : List (String × Entry)) (k : String) :
    hasKey m k = true ↔ k ∈ keysOf m := by
  induction m with
  | nil => simp [hasKey, keysOf]
  | cons p ps ih =>
    by_cases h : p.1 = k
    · simp [hasKey, keysOf, h]
    · simp only [hasKey, if_neg h, ih, keysOf_cons, List.mem_cons]
      exact ⟨Or.inr, fun hc => hc.elim (fun he => absurd he.symm h) id⟩

theorem lookupEntry_eq_none_iff (m : List (String × Entry)) (k : String) :
    lookupEntry m k = none ↔ k ∉ keysOf m := by
  induction m with
  | nil => simp [lookupEntry, keysOf]
  | cons p ps ih =>
    by_cases h : p.1 = k
    · simp [lookupEntry, keysOf, h]
    · simp only [lookupEntry, if_neg h, ih, keysOf_cons, List.mem_cons]
      constructor
      · rintro hn (he | hm)
        · exact h he.symm
        · exact hn hm
      · exact fun hn hm => hn (Or.inr hm)

theorem lookupEntry_append_of_none (m l : List (String × Entry)) (k : String)
    (h : lookupEntry m k = none) : lookupEntry (m ++ l) k = lookupEntry l k := by
  induction m with
  | nil => rfl
  | cons p ps ih =>
    by_cases hp : p.1 = k
    · simp [lookupEntry, hp] at h
    · simp only [lookupEntry, if_neg hp] at h ⊢
      exact ih h

theorem lookupEntry_append_of_some (m l : List (String × Entry)) (k : String) (e : Entry)
    (h : lookupEntry m k = some e) : lookupEntry (m ++ l) k = some e := by
  induction m with
  | nil => simp [lookupEntry] at h
  | cons p ps ih =>
    by_cases hp : p.1 = k
    · simp only [lookupEntry, if_pos hp] at h ⊢
      exact h
    · simp only [lookupEntry, if_neg hp] at h ⊢
      exact ih h

theorem lookupEntry_of_mem (m : List (String × Entry)) (p : String × Entry)
    (hm : p ∈ m) (hn : (keysOf m).Nodup) : lookupEntry m p.1 = some p.2 := by
  induction m with
  | nil => simp at hm
  | cons q qs ih =>
    rw [keysOf_cons, List.nodup_cons] at hn
    rcases List.mem_cons.mp hm with he | ht
    · subst he
      simp [lookupEntry]
    · have hq : q.1 ≠ p.1 := by
        intro he
        exact hn.1 (he ▸ List.mem_map_of_mem Prod.fst ht)
      simp only [lookupEntry, if_neg hq]
      exact ih ht hn.2

theorem dictSet_eq_append (m : List (String × Entry)) (k : String) (v : Entry)
    (h : k ∉ keysOf m) : dictSet m k v = m ++ [(k, v)] := by
  induction m with
  | nil => rfl
  | cons p ps ih =>
    rw [keysOf_cons, List.mem_cons] at h
    push_neg at h
    have hp : ¬ p.1 = k := fun he => h.1 he.symm
    rw [dictSet, if_neg hp, ih h.2]
    rfl

theorem mem_keysOf_dictSet (m : List (String × Entry)) (k k' : String) (v : Entry) :
    k' ∈ keysOf (dictSet m k v) ↔ k' ∈ keysOf m ∨ k' = k := by
  induction m with
  | nil => simp [dictSet, keysOf]
  | cons p ps ih =>
    by_cases h : p.1 = k
    · rw [dictSet, if_pos h, keysOf_cons, keysOf_cons, List.mem_cons, List.mem_cons, h]
      tauto
    · rw [dictSet, if_neg h, keysOf_cons, keysOf_cons, List.mem_cons, List.mem_cons, ih]
      tauto

theorem nodup_keysOf_dictSet (m : List (String × Entry)) (k : String) (v : Entry)
    (hn : (keysOf m).Nodup) : (keysOf (dictSet m k v)).Nodup := by
  induction m with
  | nil => simp [dictSet, keysOf]
  | cons p ps ih =>
    rw [keysOf_cons, List.nodup_cons] at hn
    by_cases h : p.1 = k
    · subst h
      rw [dictSet, if_pos rfl, keysOf_cons, List.nodup_cons]
      exact hn
    · rw [dictSet, if_neg h, keysOf_cons, List.nodup_cons]
      refine ⟨fun hc => ?_, ih hn.2⟩
      rcases (mem_keysOf_dictSet ps k p.1 v).mp hc with hm | he
      · exact hn.1 hm
      · exact h he

theorem keysOf_setKeywordScore (m : List (String × Entry)) (k : String) (sc : ℚ) :
    keysOf (setKeywordScore m k sc) = keysOf m := by
  induction m with
  | nil => rfl
  | cons p ps ih =>
    by_cases h : p.1 = k
    · simp [setKeywordScore, h, keysOf]
    · simp only [setKeywordScore, if_neg h, keysOf_cons, ih]

theorem lookupEntry_setKeywordScore_self (m : List (String × Entry)) (k : String) (sc : ℚ) :
    lookupEntry (setKeywordScore m k sc) k =
      (lookupEntry m k).map (fun e => { e with keyword_score := sc }) := by
  induction m with
  | nil => simp [setKeywordScore, lookupEntry]
  | cons p ps ih =>
    by_cases h : p.1 = k
    · simp [setKeywordScore, lookupEntry, h]
    · simp only [setKeywordScore, if_neg h, lookupEntry, if_neg h]
      exact ih

theorem lookupEntry_setKeywordScore_other (m : List (String × Entry)) (k k' : String) (sc : ℚ)
    (hne : k' ≠ k) : lookupEntry (setKeywordScore m k sc) k' = lookupEntry m k' := by
  induction m with
  | nil => rfl
  | cons p ps ih =>
    by_cases h : p.1 = k
    · have hp : ¬ p.1 = k' := fun he => hne (he.symm.trans h)
      have hk : ¬ k = k' := fun he => hne he.symm
      simp [setKeywordScore, lookupEntry, h, hp, hk]
    · by_cases h' : p.1 = k'
      · simp [setKeywordScore, lookupEntry, h, h', hne]
      · simp only [setKeywordScore, if_neg h, lookupEntry, if_neg h']
        exact ih

/-! ### The vector loop in closed form -/

/-- The entries the vector loop produces when no key collision occurs:
one entry per row, in list order. -/
def vecEntriesFrom (alpha : ℚ) : Nat → List Record → List (String × Entry)
  | _, [] => []
  | idx, row :: rest =>
      (assignKey idx row, ⟨row, (1 / (idx + 1 : ℚ)) * (1 - alpha), 0⟩) ::
        vecEntriesFrom alpha (idx + 1) rest

theorem keysOf_vecEntriesFrom (alpha : ℚ) (rs : List Record) : ∀ i : Nat,
    keysOf (vecEntriesFrom alpha i rs) = assignedKeysFrom i rs := by
  induction rs with
  | nil => intro i; rfl
  | cons row rest ih =>
    intro i
    rw [vecEntriesFrom, keysOf_cons, assignedKeysFrom, ih]

theorem lookupEntry_vecEntriesFrom (alpha : ℚ) (rs : List Record) (k : String) : ∀ i : Nat,
    lookupEntry (vecEntriesFrom alpha i rs) k =
      (findHitFrom i rs k).map
        (fun p => ⟨p.2, (1 / (p.1 + 1 : ℚ)) * (1 - alpha), 0⟩) := by
  induction rs with
  | nil => intro i; rfl
  | cons row rest ih =>
    intro i
    by_cases h : assignKey i row = k
    · simp [vecEntriesFrom, lookupEntry, findHitFrom, h]
    · simp only [vecEntriesFrom, lookupEntry, if_neg h, findHitFrom]
      exact ih (i + 1)

theorem buildVectorFrom_eq (alpha : ℚ) (rs : List Record) : ∀ (i : Nat)
    (m : List (String × Entry)),
    (keysOf m ++ assignedKeysFrom i rs).Nodup →
    buildVectorFrom alpha i m rs = m ++ vecEntriesFrom alpha i rs := by
  induction rs with
  | nil => intro i m _; simp [buildVectorFrom, vecEntriesFrom]
  | cons row rest ih =>
    intro i m hn
    rw [assignedKeysFrom] at hn
    have hfresh : assignKey i row ∉ keysOf m := by
      intro hmem
      rcases List.nodup_append.mp hn with ⟨_, _, hdisj⟩
      exact hdisj hmem (List.mem_cons_self _ _)
    rw [buildVectorFrom, dictSet_eq_append m _ _ hfresh, vecEntriesFrom]
    have hn' : (keysOf (m ++ [(assignKey i row,
        ⟨row, (1 / (i + 1 : ℚ)) * (1 - alpha), 0⟩)]) ++ assignedKeysFrom (i + 1) rest).Nodup := by
      rw [keysOf_append]
      simpa [keysOf, List.append_assoc] using hn
    rw [ih (i + 1) _ hn', List.append_assoc]
    rfl

theorem nodup_keysOf_buildVectorFrom (alpha : ℚ) (rs : List Record) : ∀ (i : Nat)
    (m : List (String × Entry)), (keysOf m).Nodup →
    (keysOf (buildVectorFrom alpha i m rs)).Nodup := by
  induction rs with
  | nil => intro i m hn; exact hn
  | cons row rest ih =>
    intro i m hn
    exact ih (i + 1) _ (nodup_keysOf_dictSet m _ _ hn)

theorem findHitFrom_eq_none_iff (rs : List Record) (k : String) : ∀ i : Nat,
    findHitFrom i rs k = none ↔ k ∉ assignedKeysFrom i rs := by
  induction rs with
  | nil => intro i; simp [findHitFrom, assignedKeysFrom]
  | cons row rest ih =>
    intro i
    by_cases h : assignKey i row = k
    · simp [findHitFrom, assignedKeysFrom, h]
    · simp only [findHitFrom, if_neg h, assignedKeysFrom, List.mem_cons, ih]
      constructor
      · rintro hn (he | hm)
        · exact h he.symm
        · exact hn hm
      · exact fun hn hm => hn (Or.inr hm)

/-! ### The keyword loop in closed form -/

/-- What one merged dict entry must be, given the document's first hit
in the keyword list and its entry from the vector loop. -/
def kwMergeSpec (alpha : ℚ) (hit : Option (Nat × Record)) (cur : Option Entry) : Option Entry :=
  match hit, cur with
  | some (jj, _), some e => some { e with keyword_score := (1 / (jj + 1 : ℚ)) * alpha }
  | some (jj, row), none => some ⟨row, 0, (1 / (jj + 1 : ℚ)) * alpha⟩
  | none, cur => cur

theorem nodup_keysOf_addKeywordFrom (alpha : ℚ) (kw : List Record) : ∀ (j : Nat)
    (m : List (String × Entry)), (keysOf m).Nodup →
    (keysOf (addKeywordFrom alpha j m kw)).Nodup := by
  induction kw with
  | nil => intro j m hn; exact hn
  | cons row rest ih =>
    intro j m hn
    rw [addKeywordFrom]
    by_cases h : hasKey m (assignKey j row) = true
    · rw [if_pos h]
      exact ih (j + 1) _ (by rw [keysOf_setKeywordScore]; exact hn)
    · rw [if_neg h]
      apply ih (j + 1)
      rw [keysOf_append, List.nodup_append]
      have hfresh : assignKey j row ∉ keysOf m :=
        fun hm => h ((hasKey_eq_true_iff m _).mpr hm)
      refine ⟨hn, List.nodup_singleton _, fun a ha hb => ?_⟩
      rw [keysOf_cons, keysOf_nil, List.mem_singleton] at hb
      have hab : a = assignKey j row := hb
      exact hfresh (hab ▸ ha)

theorem lookupEntry_addKeywordFrom (alpha : ℚ) (kw : List Record) : ∀ (j : Nat)
    (m : List (String × Entry)) (k : String), (assignedKeysFrom j kw).Nodup →
    lookupEntry (addKeywordFrom alpha j m kw) k =
      kwMergeSpec alpha (findHitFrom j kw k) (lookupEntry m k) := by
  induction kw with
  | nil => intro j m k _; rfl
  | cons row rest ih =>
    intro j m k hn
    rw [assignedKeysFrom, List.nodup_cons] at hn
    obtain ⟨hfresh, hn'⟩ := hn
    rw [addKeywordFrom, ih (j + 1) _ k hn']
    by_cases hk : assignKey j row = k
    · subst hk
      have hmiss : findHitFrom (j + 1) rest (assignKey j row) = none :=
        (findHitFrom_eq_none_iff _ _ _).mpr hfresh
      rw [hmiss, findHitFrom, if_pos rfl]
      by_cases hm : hasKey m (assignKey j row) = true
      · rw [if_pos hm]
        obtain ⟨e, he⟩ : ∃ e, lookupEntry m (assignKey j row) = some e := by
          cases hle : lookupEntry m (assignKey j row) with
          | none =>
            exact absurd ((hasKey_eq_true_iff m _).mp hm)
              ((lookupEntry_eq_none_iff m _).mp hle)
          | some e => exact ⟨e, rfl⟩
        rw [kwMergeSpec, lookupEntry_setKeywordScore_self, he]
        rfl
      · rw [if_neg hm]
        have hnone : lookupEntry m (assignKey j row) = none :=
          (lookupEntry_eq_none_iff m _).mpr (fun hmem => hm ((hasKey_eq_true_iff m _).mpr hmem))
        rw [lookupEntry_append_of_none _ _ _ hnone, hnone]
        simp [lookupEntry, kwMergeSpec, one_div]
    · rw [findHitFrom, if_neg hk]
      have hmk : lookupEntry
          (if hasKey m (assignKey j row) = true then
            setKeywordScore m (assignKey j row) ((1 / (j + 1 : ℚ)) * alpha)
          else m ++ [(assignKey j row, ⟨row, 0, (1 / (j + 1 : ℚ)) * alpha⟩)]) k =
          lookupEntry m k := by
        by_cases hm : hasKey m (assignKey j row) = true
        · rw [if_pos hm, lookupEntry_setKeywordScore_other _ _ _ _ (fun he => hk he.symm)]
        · rw [if_neg hm]
          cases hle : lookupEntry m k with
          | none => rw [lookupEntry_append_of_none _ _ _ hle]; simp [lookupEntry, hk]
          | some e => exact lookupEntry_append_of_some _ _ _ _ hle
      rw [hmk]

/-- The master characterization of the `combined` dict: under
collision-free identifiers, the entry stored for identifier `k` is
determined by the document's first hit in each result list. -/
theorem lookupEntry_combinedEntries (alpha : ℚ) (vec kw : List Record) (k : String)
    (hvec : (assignedKeys vec).Nodup) (hkw : (assignedKeys kw).Nodup) :
    lookupEntry (combinedEntries alpha vec kw) k =
      kwMergeSpec alpha (findHitFrom 0 kw k)
        ((findHitFrom 0 vec k).map
          (fun p => ⟨p.2, (1 / (p.1 + 1 : ℚ)) * (1 - alpha), 0⟩)) := by
  rw [combinedEntries, lookupEntry_addKeywordFrom alpha kw 0 _ k hkw,
    buildVectorFrom_eq alpha vec 0 [] (by simpa [keysOf] using hvec)]
  rw [List.nil_append, lookupEntry_vecEntriesFrom]

theorem nodup_keysOf_combinedEntries (alpha : ℚ) (vec kw : List Record) :
    (keysOf (combinedEntries alpha vec kw)).Nodup := by
  rw [combinedEntries]
  exact nodup_keysOf_addKeywordFrom alpha kw 0 _
    (nodup_keysOf_buildVectorFrom alpha vec 0 [] (by simp [keysOf]))

/-! ### Stability of the sort

Python's `sorted` is stable: among items of equal sort key the dict
insertion order survives.  For `List.insertionSort scoreGE` this is the
fact that filtering any fixed fused score out of the sorted list gives
exactly the same sublist as filtering it out of the input. -/

theorem filter_totalScore_orderedInsert (c : ℚ) (x : String × Entry)
    (l : List (String × Entry)) :
    (List.orderedInsert scoreGE x l).filter (fun p => decide (totalScore p.2 = c)) =
      if totalScore x.2 = c then
        x :: l.filter (fun p => decide (totalScore p.2 = c))
      else l.filter (fun p => decide (totalScore p.2 = c)) := by
  induction l with
  | nil =>
    by_cases h : totalScore x.2 = c <;> simp [List.orderedInsert, h]
  | cons y ys ih =>
    rw [List.orderedInsert]
    by_cases hxy : scoreGE x y
    · rw [if_pos hxy]
      by_cases h : totalScore x.2 = c <;> simp [List.filter_cons, h]
    · rw [if_neg hxy]
      have hlt : totalScore x.2 < totalScore y.2 := lt_of_not_le hxy
      by_cases h : totalScore x.2 = c
      · have hy : ¬ totalScore y.2 = c := by
          intro he
          rw [h, he] at hlt
          exact lt_irrefl c hlt
        simp [List.filter_cons, hy, ih, h]
      · by_cases hy : totalScore y.2 = c <;> simp [List.filter_cons, hy, ih, h]

theorem filter_totalScore_insertionSort (c : ℚ) (l : List (String × Entry)) :
    (List.insertionSort scoreGE l).filter (fun p => decide (totalScore p.2 = c)) =
      l.filter (fun p => decide (totalScore p.2 = c)) := by
  induction l with
  | nil => rfl
  | cons x xs ih =>
    rw [List.insertionSort, filter_totalScore_orderedInsert]
    by_cases h : totalScore x.2 = c <;> simp [List.filter_cons, h, ih]

/-! ### The `alpha = 0` degenerate case -/

theorem keyword_score_vecEntriesFrom (alpha : ℚ) (rs : List Record) : ∀ (i : Nat)
    (p : String × Entry), p ∈ vecEntriesFrom alpha i rs → p.2.keyword_score = 0 := by
  induction rs with
  | nil => intro i p hp; simp [vecEntriesFrom] at hp
  | cons row rest ih =>
    intro i p hp
    rcases List.mem_cons.mp hp with he | ht
    · rw [he]
    · exact ih (i + 1) p ht

theorem totalScore_vecEntriesFrom_zero (rs : List Record) : ∀ (i : Nat)
    (p : String × Entry), p ∈ vecEntriesFrom 0 i rs →
    ∃ jj : Nat, i ≤ jj ∧ totalScore p.2 = 1 / (jj + 1 : ℚ) := by
  induction rs with
  | nil => intro i p hp; simp [vecEntriesFrom] at hp
  | cons row rest ih =>
    intro i p hp
    rcases List.mem_cons.mp hp with he | ht
    · exact ⟨i, le_refl i, by rw [he]; simp [totalScore]⟩
    · obtain ⟨jj, hle, hts⟩ := ih (i + 1) p ht
      exact ⟨jj, le_trans (Nat.le_succ i) hle, hts⟩

theorem sorted_vecEntriesFrom_zero (rs : List Record) : ∀ i : Nat,
    List.Sorted scoreGE (vecEntriesFrom 0 i rs) := by
  induction rs with
  | nil => intro i; exact List.sorted_nil
  | cons row rest ih =>
    intro i
    rw [vecEntriesFrom, List.sorted_cons]
    refine ⟨fun b hb => ?_, ih (i + 1)⟩
    obtain ⟨jj, hle, hts⟩ := totalScore_vecEntriesFrom_zero rest (i + 1) b hb
    show totalScore b.2 ≤ totalScore _
    rw [hts]
    have hts2 : totalScore ⟨row, (1 / (i + 1 : ℚ)) * (1 - 0), 0⟩ = 1 / (i + 1 : ℚ) := by
      simp [totalScore]
    rw [hts2]
    have hpos : (0 : ℚ) < (i : ℚ) + 1 := by positivity
    have hcast : ((i : ℚ) + 1) ≤ ((jj : ℚ) + 1) := by
      have : (i : ℚ) ≤ (jj : ℚ) := by
        exact_mod_cast le_trans (Nat.le_succ i) hle
      linarith
    exact one_div_le_one_div_of_le hpos hcast

theorem setKeywordScore_zero (m : List (String × Entry)) (k : String)
    (h : ∀ p ∈ m, (p : String × Entry).2.keyword_score = 0) :
    setKeywordScore m k 0 = m := by
  induction m with
  | nil => rfl
  | cons p ps ih =>
    by_cases hk : p.1 = k
    · rw [setKeywordScore, if_pos hk]
      have h0 : p.2.keyword_score = 0 := h p (List.mem_cons_self _ _)
      have he : ({ p.2 with keyword_score := 0 } : Entry) = p.2 := by
        rw [← h0]
      rw [he]
    · rw [setKeywordScore, if_neg hk, ih (fun q hq => h q (List.mem_cons_of_mem p hq))]

theorem addKeywordFrom_zero (kw : List Record) : ∀ (j : Nat) (m : List (String × Entry)),
    (∀ p ∈ m, (p : String × Entry).2.keyword_score = 0) →
    (∀ k ∈ assignedKeysFrom j kw, k ∈ keysOf m) →
    addKeywordFrom 0 j m kw = m := by
  induction kw with
  | nil => intro j m _ _; rfl
  | cons row rest ih =>
    intro j m h0 hsub
    rw [addKeywordFrom]
    have hk : hasKey m (assignKey j row) = true :=
      (hasKey_eq_true_iff _ _).mpr
        (hsub _ (by rw [assignedKeysFrom]; exact List.mem_cons_self _ _))
    rw [if_pos hk, mul_zero, setKeywordScore_zero m _ h0]
    exact ih (j + 1) m h0
      (fun k hkm => hsub k (by rw [assignedKeysFrom]; exact List.mem_cons_of_mem _ hkm))

theorem combinedEntries_zero (vec kw : List Record)
    (hvec : (assignedKeys vec).Nodup)
    (hsub : ∀ k ∈ assignedKeys kw, k ∈ assignedKeys vec) :
    combinedEntries 0 vec kw = vecEntriesFrom 0 0 vec := by
  rw [combinedEntries, buildVectorFrom_eq 0 vec 0 [] (by simpa [keysOf] using hvec),
    List.nil_append]
  exact addKeywordFrom_zero kw 0 _
    (keyword_score_vecEntriesFrom 0 vec 0)
    (fun k hk => by rw [keysOf_vecEntriesFrom]; exact hsub k hk)

theorem lookup_of_mem_rankedEntries (alpha : ℚ) (vec kw : List Record)
    (p : String × Entry) (hp : p ∈ rankedEntries alpha vec kw) :
    lookupEntry (combinedEntries alpha vec kw) p.1 = some p.2 :=
  lookupEntry_of_mem _ p ((List.perm_insertionSort scoreGE _).mem_iff.mp hp)
    (nodup_keysOf_combinedEntries alpha vec kw)

/-! ### The claims -/

/-- C1: in `hybrid_search`, a candidate at 0-based position `i` of the
vector result list contributes `vector_component = (1/(i+1)) * (1 - alpha)`,
a candidate at 0-based position `j` of the keyword result list
contributes `keyword_component = (1/(j+1)) * alpha`, candidates are
merged by document identifier (a document in both lists accumulates
both components, a document in only one list has the other component
zero, and an identifier is stored at most once), and each returned
item's `_score` equals `vector_component + keyword_component`.  The
collision-freedom hypotheses state that the identifiers assigned within
each result list are pairwise distinct, which the store's per-table
`id` uniqueness guarantees. -/
theorem hybrid_search_score_components (alpha : ℚ) (limit : Nat) (vec kw : List Record)
    (hvec : (assignedKeys vec).Nodup) (hkw : (assignedKeys kw).Nodup) :
    (∀ item ∈ hybrid_search_results alpha limit vec kw,
        item.score = vector_component alpha vec item.doc_id +
          keyword_component alpha kw item.doc_id)
    ∧ (∀ k e, lookupEntry (combinedEntries alpha vec kw) k = some e →
        e.vector_score = vector_component alpha vec k ∧
        e.keyword_score = keyword_component alpha kw k)
    ∧ (∀ k : String, (∃ e, lookupEntry (combinedEntries alpha vec kw) k = some e) ↔
        (k ∈ assignedKeys vec ∨ k ∈ assignedKeys kw)) := by
  have hcomp : ∀ k e, lookupEntry (combinedEntries alpha vec kw) k = some e →
      e.vector_score = vector_component alpha vec k ∧
      e.keyword_score = keyword_component alpha kw k := by
    intro k e he
    rw [lookupEntry_combinedEntries alpha vec kw k hvec hkw] at he
    cases hv : findHitFrom 0 vec k with
    | none =>
      cases hw : findHitFrom 0 kw k with
      | none =>
        rw [hv, hw] at he
        simp [kwMergeSpec] at he
      | some pj =>
        obtain ⟨j, rj⟩ := pj
        rw [hv, hw] at he
        simp only [kwMergeSpec, Option.map_none', Option.some.injEq] at he
        rw [← he]
        simp [vector_component, keyword_component, hv, hw]
    | some pi =>
      obtain ⟨i, ri⟩ := pi
      cases hw : findHitFrom 0 kw k with
      | none =>
        rw [hv, hw] at he
        simp only [kwMergeSpec, Option.map_some', Option.some.injEq] at he
        rw [← he]
        simp [vector_component, keyword_component, hv, hw]
      | some pj =>
        obtain ⟨j, rj⟩ := pj
        rw [hv, hw] at he
        simp only [kwMergeSpec, Option.map_some', Option.some.injEq] at he
        rw [← he]
        simp [vector_component, keyword_component, hv, hw]
  have hmem : ∀ k : String,
      (∃ e, lookupEntry (combinedEntries alpha vec kw) k = some e) ↔
        (k ∈ assignedKeys vec ∨ k ∈ assignedKeys kw) := by
    intro k
    rw [lookupEntry_combinedEntries alpha vec kw k hvec hkw]
    constructor
    · rintro ⟨e, he⟩
      by_contra hc
      push_neg at hc
      have hv : findHitFrom 0 vec k = none := (findHitFrom_eq_none_iff vec k 0).mpr hc.1
      have hw : findHitFrom 0 kw k = none := (findHitFrom_eq_none_iff kw k 0).mpr hc.2
      rw [hv, hw] at he
      simp [kwMergeSpec] at he
    · intro h
      cases hv : findHitFrom 0 vec k with
      | some pi =>
        obtain ⟨i, ri⟩ := pi
        cases hw : findHitFrom 0 kw k with
        | some pj =>
          obtain ⟨j, rj⟩ := pj
          exact ⟨_, rfl⟩
        | none => exact ⟨_, rfl⟩
      | none =>
        cases hw : findHitFrom 0 kw k with
        | some pj =>
          obtain ⟨j, rj⟩ := pj
          exact ⟨_, rfl⟩
        | none =>
          rcases h with hm | hm
          · exact absurd hm ((findHitFrom_eq_none_iff vec k 0).mp hv)
          · exact absurd hm ((findHitFrom_eq_none_iff kw k 0).mp hw)
  refine ⟨?_, hcomp, hmem⟩
  intro item hitem
  rw [hybrid_search_results] at hitem
  obtain ⟨p, hp, hmk⟩ := List.mem_map.mp hitem
  have hpr : p ∈ rankedEntries alpha vec kw := List.take_subset _ _ hp
  have hlk := lookup_of_mem_rankedEntries alpha vec kw p hpr
  obtain ⟨hv, hk2⟩ := hcomp p.1 p.2 hlk
  rw [← hmk]
  show totalScore p.2 = _
  rw [totalScore, hv, hk2]

/-- Witness for C1 at a concrete instance: vector list `[a, b]`,
keyword list `[b, c]`, `alpha = 1/2`. -/
theorem hybrid_search_score_components_witness :
    ((assignedKeys ([⟨some "a", 1⟩, ⟨some "b", 2⟩] : List Record)).Nodup
      ∧ (assignedKeys ([⟨some "b", 3⟩, ⟨some "c", 4⟩] : List Record)).Nodup)
    ∧ (∀ item ∈ hybrid_search_results (1/2) 10
          ([⟨some "a", 1⟩, ⟨some "b", 2⟩] : List Record)
          ([⟨some "b", 3⟩, ⟨some "c", 4⟩] : List Record),
        item.score = vector_component (1/2) ([⟨some "a", 1⟩, ⟨some "b", 2⟩] : List Record)
            item.doc_id +
          keyword_component (1/2) ([⟨some "b", 3⟩, ⟨some "c", 4⟩] : List Record)
            item.doc_id) :=
  ⟨⟨by decide, by decide⟩,
    (hybrid_search_score_components (1/2) 10 _ _ (by decide) (by decide)).1⟩

/-- C2: for every pair of result lists, positive limit and alpha, the
output of `hybrid_search` has length at most `limit` and no two items
share a document identifier (the identifier an item was merged and
ranked under). -/
theorem hybrid_search_limit_and_nodup (alpha : ℚ) (limit : Nat) (vec kw : List Record)
    (hpos : 0 < limit) :
    (hybrid_search_results alpha limit vec kw).length ≤ limit
    ∧ ((hybrid_search_results alpha limit vec kw).map FusedItem.doc_id).Nodup := by
  constructor
  · rw [hybrid_search_results, List.length_map]
    exact List.length_take_le _ _
  · have hmap : (hybrid_search_results alpha limit vec kw).map FusedItem.doc_id =
        (keysOf (rankedEntries alpha vec kw)).take limit := by
      rw [hybrid_search_results, List.map_map]
      rw [show (FusedItem.doc_id ∘ fun p : String × Entry =>
        (⟨p.1, p.2.data, totalScore p.2⟩ : FusedItem)) = Prod.fst from rfl]
      rw [List.map_take]
      rfl
    rw [hmap]
    have hperm : List.Perm (keysOf (rankedEntries alpha vec kw))
        (keysOf (combinedEntries alpha vec kw)) :=
      (List.perm_insertionSort scoreGE _).map Prod.fst
    have hnd : (keysOf (rankedEntries alpha vec kw)).Nodup :=
      hperm.nodup_iff.mpr (nodup_keysOf_combinedEntries alpha vec kw)
    exact List.Nodup.sublist (List.take_sublist _ _) hnd

/-- Witness for C2 at a concrete instance. -/
theorem hybrid_search_limit_and_nodup_witness :
    0 < 2
    ∧ ((hybrid_search_results (1/2) 2 ([⟨some "a", 1⟩, ⟨some "b", 2⟩] : List Record)
        ([⟨some "b", 3⟩, ⟨some "c", 4⟩] : List Record)).length ≤ 2
      ∧ ((hybrid_search_results (1/2) 2 ([⟨some "a", 1⟩, ⟨some "b", 2⟩] : List Record)
        ([⟨some "b", 3⟩, ⟨some "c", 4⟩] : List Record)).map FusedItem.doc_id).Nodup) :=
  ⟨by decide, hybrid_search_limit_and_nodup (1/2) 2 _ _ (by decide)⟩

/-- C3: when the keyword (full-text) query fails for any reason, the
bare `except:` of `hybrid_search` replaces its result with the empty
list: the endpoint still answers `ok` with the ranking built from the
vector list alone, exactly as if the keyword query had succeeded with
no hits. -/
theorem hybrid_search_keyword_failure_degrades (embedding : List ℚ) (vec : List Record)
    (alpha : ℚ) (limit : Nat) :
    hybrid_search (.ok embedding) (.ok vec) (.error ()) alpha limit =
      .ok (hybrid_search_results alpha limit vec [])
    ∧ hybrid_search (.ok embedding) (.ok vec) (.error ()) alpha limit =
      hybrid_search (.ok embedding) (.ok vec) (.ok []) alpha limit :=
  ⟨rfl, rfl⟩

/-- C4: for `alpha = 0` the output ranking of `hybrid_search` is the
vector result list's own order (truncated to `limit`), and every
candidate's keyword contribution is zero.  The subset hypothesis
states that every document of the keyword list also appears in the
vector list — the situation of two queries over the same table whose
vector pass returned every candidate; without it the code would append
the extra keyword-only documents (with score zero) after the vector
ones. -/
theorem hybrid_search_alpha_zero_vector_order (limit : Nat) (vec kw : List Record)
    (hvec : (assignedKeys vec).Nodup)
    (hsub : ∀ k ∈ assignedKeys kw, k ∈ assignedKeys vec) :
    (hybrid_search_results 0 limit vec kw).map FusedItem.doc_id =
      (assignedKeys vec).take limit
    ∧ (∀ k, keyword_component 0 kw k = 0) := by
  constructor
  · have hc : combinedEntries 0 vec kw = vecEntriesFrom 0 0 vec :=
      combinedEntries_zero vec kw hvec hsub
    have hr : rankedEntries 0 vec kw = vecEntriesFrom 0 0 vec := by
      rw [rankedEntries, hc]
      exact List.Sorted.insertionSort_eq (sorted_vecEntriesFrom_zero vec 0)
    rw [hybrid_search_results, hr, List.map_map,
      show (FusedItem.doc_id ∘ fun p : String × Entry =>
        (⟨p.1, p.2.data, totalScore p.2⟩ : FusedItem)) = Prod.fst from rfl,
      List.map_take,
      show (vecEntriesFrom 0 0 vec).map Prod.fst = assignedKeys vec from
        keysOf_vecEntriesFrom 0 vec 0]
  · intro k
    rw [keyword_component]
    cases hw : findHitFrom 0 kw k with
    | none => rfl
    | some pj =>
      obtain ⟨j, rj⟩ := pj
      simp

/-- Witness for C4 at a concrete instance: vector list `[a, b]`,
keyword list `[b]`. -/
theorem hybrid_search_alpha_zero_vector_order_witness :
    ((assignedKeys ([⟨some "a", 1⟩, ⟨some "b", 2⟩] : List Record)).Nodup
      ∧ ∀ k ∈ assignedKeys ([⟨some "b", 3⟩] : List Record),
          k ∈ assignedKeys ([⟨some "a", 1⟩, ⟨some "b", 2⟩] : List Record))
    ∧ (hybrid_search_results 0 5 ([⟨some "a", 1⟩, ⟨some "b", 2⟩] : List Record)
        ([⟨some "b", 3⟩] : List Record)).map FusedItem.doc_id =
      (assignedKeys ([⟨some "a", 1⟩, ⟨some "b", 2⟩] : List Record)).take 5 :=
  ⟨⟨by decide, by decide⟩,
    (hybrid_search_alpha_zero_vector_order 5 _ _ (by decide) (by decide)).1⟩

/-! ### C5: the tie-break -/

/-- The vector-list rank of the document identified by `k`, `none`
when the document does not appear in the vector list. -/
def vectorRankOf (vec : List Record) (k : String) : Option Nat :=
  (findHitFrom 0 vec k).map Prod.fst

/-- Rank comparison with absent ranks worst: a present rank precedes
an absent one, two present ranks compare numerically. -/
def rankLT : Option Nat → Option Nat → Prop
  | some i, some j => i < j
  | some _, none => True
  | none, _ => False

instance : DecidableRel rankLT := fun a b =>
  match a, b with
  | some i, some j => inferInstanceAs (Decidable (i < j))
  | some _, none => isTrue trivial
  | none, some _ => isFalse id
  | none, none => isFalse id

/-- The ordering asserted by the C5 spec sentence: strictly greater
fused score first; among equal scores, better (smaller) vector-list
rank first; among equal scores and equal vector ranks, smaller
identifier first. -/
def claimedTieOrder (vec : List Record) (a b : String × Entry) : Prop :=
  totalScore b.2 < totalScore a.2 ∨
    (totalScore a.2 = totalScore b.2 ∧
      (rankLT (vectorRankOf vec a.1) (vectorRankOf vec b.1) ∨
        (vectorRankOf vec a.1 = vectorRankOf vec b.1 ∧ a.1 < b.1)))

instance (vec : List Record) : DecidableRel (claimedTieOrder vec) := fun a b =>
  inferInstanceAs (Decidable (totalScore b.2 < totalScore a.2 ∨
    (totalScore a.2 = totalScore b.2 ∧
      (rankLT (vectorRankOf vec a.1) (vectorRankOf vec b.1) ∨
        (vectorRankOf vec a.1 = vectorRankOf vec b.1 ∧ a.1 < b.1)))))

/-- C5 counterexample: with `alpha = 0`, vector list `[v]` and keyword
list `[b, a]`, the two keyword-only documents tie at fused score `0`
and the code emits them in keyword-list order (`b` before `a`), not in
identifier order (`a` before `b`): the output is not sorted by the
score/vector-rank/identifier ordering the claim asserts. -/
theorem hybrid_search_tie_break_not_by_identifier :
    ¬ List.Pairwise
        (claimedTieOrder ([⟨some "v", 0⟩] : List Record))
        (rankedEntries 0 ([⟨some "v", 0⟩] : List Record)
          ([⟨some "b", 1⟩, ⟨some "a", 2⟩] : List Record)) := by
  intro h
  have hlist : rankedEntries 0 ([⟨some "v", 0⟩] : List Record)
      ([⟨some "b", 1⟩, ⟨some "a", 2⟩] : List Record) =
      [("v", ⟨⟨some "v", 0⟩, 1, 0⟩), ("b", ⟨⟨some "b", 1⟩, 0, 0⟩),
        ("a", ⟨⟨some "a", 2⟩, 0, 0⟩)] := by
    norm_num [rankedEntries, combinedEntries, addKeywordFrom, buildVectorFrom, dictSet,
      hasKey, setKeywordScore, assignKey, List.insertionSort, List.orderedInsert, scoreGE,
      totalScore]
  rw [hlist, List.pairwise_cons] at h
  rw [List.pairwise_cons] at h
  have hba := h.2.1 ("a", ⟨⟨some "a", 2⟩, 0, 0⟩) (List.mem_singleton.mpr rfl)
  have hbr : vectorRankOf ([⟨some "v", 0⟩] : List Record) "b" = none := rfl
  have har : vectorRankOf ([⟨some "v", 0⟩] : List Record) "a" = none := rfl
  rcases hba with hlt | ⟨-, hor⟩
  · exact absurd hlt (by norm_num [totalScore])
  · rcases hor with hrk | ⟨-, hle⟩
    · rw [hbr, har] at hrk
      exact hrk
    · refine absurd hle ?_
      show ¬ ("b" : String) < "a"
      rw [String.lt_iff_toList_lt]
      decide

/-- C5 amended: `hybrid_search` sorts the merged candidates descending
by fused score with a stable sort: the output is a permutation of the
merged dict, its scores are non-increasing, and within any fixed fused
score the candidates keep their dict insertion order (vector-list
documents in vector-rank order followed by keyword-only documents in
keyword-list order).  Identifiers play no role in tie-breaking; the
order is still a deterministic function of the two result lists. -/
theorem hybrid_search_stable_sort_order (alpha : ℚ) (vec kw : List Record) :
    List.Perm (rankedEntries alpha vec kw) (combinedEntries alpha vec kw)
    ∧ List.Sorted scoreGE (rankedEntries alpha vec kw)
    ∧ ∀ c : ℚ,
        (rankedEntries alpha vec kw).filter (fun p => decide (totalScore p.2 = c)) =
          (combinedEntries alpha vec kw).filter (fun p => decide (totalScore p.2 = c)) :=
  ⟨List.perm_insertionSort scoreGE _, List.sorted_insertionSort scoreGE _,
    fun c => filter_totalScore_insertionSort c _⟩

/-- C6 counterexample: `alpha = 2` lies outside `[0, 1]`, yet the call
is not rejected with an invalid-parameter error: the embedding and
store queries run and the endpoint answers `ok`, with the fused score
`(1/1) * (1 - 2) = -1` computed from the out-of-range weight. -/
theorem alpha_out_of_range_not_rejected :
    ((2 : ℚ) < 0 ∨ (1 : ℚ) < 2)
    ∧ hybrid_search (.ok []) (.ok ([⟨some "a", 0⟩] : List Record)) (.ok []) 2 5 =
        .ok (hybrid_search_results 2 5 ([⟨some "a", 0⟩] : List Record) [])
    ∧ hybrid_search_results 2 5 ([⟨some "a", 0⟩] : List Record) [] =
        [⟨"a", ⟨some "a", 0⟩, -1⟩] := by
  refine ⟨Or.inr (by norm_num), rfl, ?_⟩
  norm_num [hybrid_search_results, rankedEntries, combinedEntries, addKeywordFrom,
    buildVectorFrom, dictSet, assignKey, List.insertionSort, List.orderedInsert, totalScore]

/-- C6 amended: neither `HybridSearchRequest` nor the handler performs
any range validation of `alpha`: for every `alpha` whatsoever, when the
embedding call and the store queries succeed the endpoint returns a
normal `ok` result list (of length at most `limit`) fused with that
`alpha`. -/
theorem hybrid_search_no_alpha_validation (alpha : ℚ) (embedding : List ℚ)
    (vec kw : List Record) (limit : Nat) :
    hybrid_search (.ok embedding) (.ok vec) (.ok kw) alpha limit =
      .ok (hybrid_search_results alpha limit vec kw)
    ∧ (hybrid_search_results alpha limit vec kw).length ≤ limit := by
  refine ⟨rfl, ?_⟩
  rw [hybrid_search_results, List.length_map]
  exact List.length_take_le _ _

/-! ### Store lemmas -/

theorem lookupTable_append_right (s : Store) (name : String) (x : List StoredRecord)
    (h : name ∉ tableNames s) : lookupTable (s ++ [(name, x)]) name = some x := by
  induction s with
  | nil => simp [lookupTable]
  | cons t ts ih =>
    obtain ⟨tn, trecs⟩ := t
    rw [tableNames, List.map_cons, List.mem_cons] at h
    push_neg at h
    rw [List.cons_append, lookupTable, if_neg (fun he => h.1 he.symm)]
    exact ih h.2

theorem lookupTable_append_other (s : Store) (name other : String) (x : List StoredRecord)
    (h : other ≠ name) : lookupTable (s ++ [(name, x)]) other = lookupTable s other := by
  induction s with
  | nil =>
    have hno : ¬ name = other := fun he => h he.symm
    simp [lookupTable, hno]
  | cons t ts ih =>
    obtain ⟨tn, trecs⟩ := t
    by_cases ht : tn = other
    · rw [List.cons_append, lookupTable, if_pos ht, lookupTable, if_pos ht]
    · rw [List.cons_append, lookupTable, if_neg ht, lookupTable, if_neg ht]
      exact ih

theorem lookupTable_tableDelete_self (s : Store) (name docId : String) :
    lookupTable (tableDelete s name docId) name =
      (lookupTable s name).map (fun recs => recs.filter (fun r => r.id ≠ docId)) := by
  induction s with
  | nil => rfl
  | cons t ts ih =>
    obtain ⟨tn, trecs⟩ := t
    by_cases ht : tn = name
    · subst ht
      simp [tableDelete, lookupTable]
    · simp only [tableDelete, List.map_cons, if_neg ht, lookupTable, if_neg ht]
      exact ih

theorem lookupTable_tableDelete_other (s : Store) (name docId other : String)
    (h : other ≠ name) :
    lookupTable (tableDelete s name docId) other = lookupTable s other := by
  induction s with
  | nil => rfl
  | cons t ts ih =>
    obtain ⟨tn, trecs⟩ := t
    by_cases ht : tn = name
    · have ho : ¬ tn = other := fun he => h (he.symm.trans ht)
      simp only [tableDelete, List.map_cons, if_pos ht, lookupTable, if_neg ho]
      exact ih
    · by_cases ho : tn = other
      · simp only [tableDelete, List.map_cons, if_neg ht, lookupTable, if_pos ho]
      · simp only [tableDelete, List.map_cons, if_neg ht, lookupTable, if_neg ho]
        exact ih

/-- C7: ensuring or creating a table that already exists is a no-op —
the store is returned unchanged (every table keeps its content) and the
`create_table` endpoint answers with the non-error `"exists"` status;
only when the table is absent is it created, and then its content is
empty (the placeholder seed record has already been deleted again)
while every other table is untouched. -/
theorem ensure_create_table_idempotent (s : Store) (name : String) :
    (name ∈ tableNames s →
      ensure_table_exists s name = s ∧ create_table s name = (s, "exists"))
    ∧ (name ∉ tableNames s →
      lookupTable (ensure_table_exists s name) name = some []
      ∧ (∀ other, other ≠ name →
          lookupTable (ensure_table_exists s name) other = lookupTable s other)
      ∧ create_table s name = (ensure_table_exists s name, "success")) := by
  constructor
  · intro h
    rw [ensure_table_exists, if_pos h, create_table, if_pos h]
    exact ⟨rfl, rfl⟩
  · intro h
    have he : ensure_table_exists s name =
        tableDelete (rawCreate s name) name "placeholder" := by
      rw [ensure_table_exists, if_neg h]
    refine ⟨?_, ?_, ?_⟩
    · rw [he, lookupTable_tableDelete_self, rawCreate,
        lookupTable_append_right s name _ h]
      simp [placeholderRecord]
    · intro other ho
      rw [he, lookupTable_tableDelete_other _ _ _ _ ho, rawCreate,
        lookupTable_append_other s name other _ ho]
    · rw [create_table, if_neg h, he]

/-- Witness for C7 at a concrete instance: a store holding one table
`"t"` with one record; ensuring/creating `"t"` changes nothing, and
ensuring the absent `"u"` yields an empty table `"u"`. -/
theorem ensure_create_table_idempotent_witness :
    ("t" ∈ tableNames ([("t", [⟨"a1", "red widget", [], "m"⟩])] : Store)
      ∧ ensure_table_exists ([("t", [⟨"a1", "red widget", [], "m"⟩])] : Store) "t" =
          [("t", [⟨"a1", "red widget", [], "m"⟩])]
      ∧ create_table ([("t", [⟨"a1", "red widget", [], "m"⟩])] : Store) "t" =
          ([("t", [⟨"a1", "red widget", [], "m"⟩])], "exists"))
    ∧ ("u" ∉ tableNames ([("t", [⟨"a1", "red widget", [], "m"⟩])] : Store)
      ∧ lookupTable (ensure_table_exists
          ([("t", [⟨"a1", "red widget", [], "m"⟩])] : Store) "u") "u" = some []) :=
  ⟨⟨by decide,
      ((ensure_create_table_idempotent [("t", [⟨"a1", "red widget", [], "m"⟩])] "t").1
        (by decide)).1,
      ((ensure_create_table_idempotent [("t", [⟨"a1", "red widget", [], "m"⟩])] "t").1
        (by decide)).2⟩,
    ⟨by decide,
      ((ensure_create_table_idempotent [("t", [⟨"a1", "red widget", [], "m"⟩])] "u").2
        (by decide)).1⟩⟩

/-- C8: evaluation of `delete_documents` at the failing input — a
delete request against the absent table `"missing"`.  The handler
builds an `HTTPException(404)`, but the blanket `except Exception`
handler catches that very exception and re-raises it with status 500,
so the reported error is 500, the same status used for store failures,
not the distinct 404 Not Found the claim (and the handler's own
explicit `status_code=404`) intends.  No deletion touches the store:
the store comes back unchanged. -/
theorem delete_documents_missing_table_reports_500 :
    delete_documents ([("products_embeddings", [])] : Store) "missing" ["a1"] =
      (([("products_embeddings", [])] : Store), .error 500)
    ∧ (500 : Nat) ≠ 404 := by
  constructor
  · rfl
  · decide

/-! ### Ingestion: all-or-nothing -/

theorem buildRecords_error (embed : String → Except Unit (List ℚ)) (genId : Nat → String) :
    ∀ (docs : List Doc) (n : Nat), (∃ d ∈ docs, embed (selectText d) = .error ()) →
    buildRecords embed genId n docs = .error () := by
  intro docs
  induction docs with
  | nil => intro n h; simp at h
  | cons d ds ih =>
    intro n h
    rw [buildRecords]
    cases hd : embed (selectText d) with
    | error e =>
      cases e
      rfl
    | ok v =>
      obtain ⟨d', hd', he'⟩ := h
      rcases List.mem_cons.mp hd' with heq | hmem
      · rw [heq, hd] at he'
        simp at he'
      · rw [ih (n + 1) ⟨d', hmem, he'⟩]

/-- C9: if the embedding call fails for any single document of the
batch, the whole `insert_documents` call fails with HTTP 500 and no
record of the batch is written: the store comes back exactly as
`ensure_table_exists` left it (the lazily created table is empty; no
`table.add` has run). -/
theorem insert_documents_all_or_nothing (embed : String → Except Unit (List ℚ))
    (genId : Nat → String) (s : Store) (table : String) (documents : List Doc)
    (h : ∃ d ∈ documents, embed (selectText d) = .error ()) :
    insert_documents embed genId s table documents =
      (ensure_table_exists s table, .error 500) := by
  have hb := buildRecords_error embed genId documents 0 h
  simp only [insert_documents]
  rw [hb]

/-- Witness for C9 at a concrete instance: one document, an embedding
provider that always fails. -/
theorem insert_documents_all_or_nothing_witness :
    (∃ d ∈ ([⟨some "a1", some "red widget", none, none⟩] : List Doc),
        (fun _ => (.error () : Except Unit (List ℚ))) (selectText d) = .error ())
    ∧ insert_documents (fun _ => .error ()) (fun n => toString n) [] "t1"
        [⟨some "a1", some "red widget", none, none⟩] =
      (ensure_table_exists [] "t1", .error 500) :=
  ⟨⟨⟨some "a1", some "red widget", none, none⟩, List.mem_singleton.mpr rfl, rfl⟩,
    insert_documents_all_or_nothing _ _ _ _ _
      ⟨⟨some "a1", some "red widget", none, none⟩, List.mem_singleton.mpr rfl, rfl⟩⟩

/-! ### C10: id-less rows collide by position -/

theorem mem_assignedKeysFrom (rs : List Record) : ∀ (i k0 : Nat) (h : k0 < rs.length),
    assignKey (i + k0) (rs.get ⟨k0, h⟩) ∈ assignedKeysFrom i rs := by
  induction rs with
  | nil => intro i k0 h; simp at h
  | cons row rest ih =>
    intro i k0 h
    cases k0 with
    | zero =>
      rw [Nat.add_zero, assignedKeysFrom]
      exact List.mem_cons_self _ _
    | succ k0' =>
      rw [assignedKeysFrom]
      refine List.mem_cons_of_mem _ ?_
      have harr : i + (k0' + 1) = (i + 1) + k0' := by omega
      rw [harr]
      exact ih (i + 1) k0' (Nat.lt_of_succ_lt_succ h)

theorem findHitFrom_of_get (rs : List Record) : ∀ (i k0 : Nat) (h : k0 < rs.length),
    (assignedKeysFrom i rs).Nodup →
    findHitFrom i rs (assignKey (i + k0) (rs.get ⟨k0, h⟩)) =
      some (i + k0, rs.get ⟨k0, h⟩) := by
  induction rs with
  | nil => intro i k0 h _; simp at h
  | cons row rest ih =>
    intro i k0 h hn
    rw [assignedKeysFrom, List.nodup_cons] at hn
    cases k0 with
    | zero =>
      rw [Nat.add_zero]
      show findHitFrom i (row :: rest) (assignKey i row) = some (i, row)
      rw [findHitFrom, if_pos rfl]
    | succ k0' =>
      have harr : i + (k0' + 1) = (i + 1) + k0' := by omega
      rw [harr]
      have hne : ¬ assignKey i row =
          assignKey ((i + 1) + k0') ((row :: rest).get ⟨k0' + 1, h⟩) := by
        intro he
        apply hn.1
        rw [he]
        exact mem_assignedKeysFrom rest (i + 1) k0' (Nat.lt_of_succ_lt_succ h)
      rw [findHitFrom, if_neg hne]
      exact ih (i + 1) k0' (Nat.lt_of_succ_lt_succ h) hn.2

/-- C10: a retrieved row without an `id` field is assigned the string
form of its position (`str(idx)`), so an id-less vector hit at
position `k` and an id-less keyword hit at the same position `k` merge
into one fused entry keyed `toString k` — even when the two rows are
different records.  The surviving entry carries the vector row's data
and accumulates both components; the merged dict holds each identifier
at most once. -/
theorem idless_records_merge_by_position (alpha : ℚ) (vec kw : List Record) (k : Nat)
    (hvk : k < vec.length) (hkk : k < kw.length)
    (hvid : (vec.get ⟨k, hvk⟩).id = none) (hkid : (kw.get ⟨k, hkk⟩).id = none)
    (hvec : (assignedKeys vec).Nodup) (hkw : (assignedKeys kw).Nodup) :
    lookupEntry (combinedEntries alpha vec kw) (toString k) =
      some ⟨vec.get ⟨k, hvk⟩, (1 / (k + 1 : ℚ)) * (1 - alpha), (1 / (k + 1 : ℚ)) * alpha⟩
    ∧ (keysOf (combinedEntries alpha vec kw)).Nodup := by
  refine ⟨?_, nodup_keysOf_combinedEntries alpha vec kw⟩
  have hkey_v : assignKey k (vec.get ⟨k, hvk⟩) = toString k := by
    rw [assignKey, hvid]
    rfl
  have hkey_k : assignKey k (kw.get ⟨k, hkk⟩) = toString k := by
    rw [assignKey, hkid]
    rfl
  have hv : findHitFrom 0 vec (toString k) = some (k, vec.get ⟨k, hvk⟩) := by
    have h0 := findHitFrom_of_get vec 0 k hvk hvec
    rw [Nat.zero_add, hkey_v] at h0
    exact h0
  have hw : findHitFrom 0 kw (toString k) = some (k, kw.get ⟨k, hkk⟩) := by
    have h0 := findHitFrom_of_get kw 0 k hkk hkw
    rw [Nat.zero_add, hkey_k] at h0
    exact h0
  rw [lookupEntry_combinedEntries alpha vec kw _ hvec hkw, hv, hw]
  rfl

/-- Witness for C10 at a concrete instance: two different id-less
records at position 0 of the two lists merge into one entry keyed
`"0"` carrying the vector record's data and both score components. -/
theorem idless_records_merge_by_position_witness :
    ((([⟨none, 7⟩] : List Record).get ⟨0, Nat.zero_lt_one⟩).id = none
      ∧ (([⟨none, 9⟩] : List Record).get ⟨0, Nat.zero_lt_one⟩).id = none)
    ∧ lookupEntry
        (combinedEntries (1/2) ([⟨none, 7⟩] : List Record) ([⟨none, 9⟩] : List Record))
        (toString 0) =
      some ⟨([⟨none, 7⟩] : List Record).get ⟨0, Nat.zero_lt_one⟩,
        (1 / (0 + 1 : ℚ)) * (1 - 1/2), (1 / (0 + 1 : ℚ)) * (1/2)⟩ :=
  ⟨⟨rfl, rfl⟩,
    (idless_records_merge_by_position (1/2) ([⟨none, 7⟩] : List Record)
      ([⟨none, 9⟩] : List Record) 0 Nat.zero_lt_one Nat.zero_lt_one
      rfl rfl (by decide) (by decide)).1⟩

end WeaponsBackend
